import Mathlib

/-!
Verification of the request-processing pipeline core of this repository:
the token-bucket rate limiter (`RateLimiter` in the custom-middleware
example) and the gin middleware chain (`Next` / `Abort` semantics as
documented in `3_1_middleware_principle.go`).

The Go code's `float64` arithmetic is embedded as exact rational
arithmetic (`ℚ`); `time.Time` values are embedded as rational
timestamps measured in seconds, so `now.Sub(lastUpdate).Seconds()`
becomes `now - lastUpdate`.
-/

namespace Pipeline

/-! ## Token bucket (`RateLimiter`, src/unnamed/part_001)

```go
type RateLimiter struct {
    rate       float64    // token generation rate (per second)
    maxTokens  float64    // bucket capacity
    tokens     float64    // current token count
    lastUpdate time.Time  // time of last refill
    mu         sync.Mutex // mutex
}
```
The mutex serializes calls to `Allow`; the embedding therefore treats one
`Allow` call as a single atomic step of a sequential trace. -/

structure RateLimiter where
  rate : ℚ
  maxTokens : ℚ
  tokens : ℚ
  lastUpdate : ℚ
deriving DecidableEq, Repr

/-- `NewRateLimiter` (src/unnamed/part_001): the bucket starts full
(`tokens: maxTokens`) and `lastUpdate` is the construction time
(`time.Now()`, passed explicitly here as `now`). -/
def NewRateLimiter (rate maxTokens now : ℚ) : RateLimiter :=
  { rate := rate, maxTokens := maxTokens, tokens := maxTokens, lastUpdate := now }

/-- `(*RateLimiter).Allow` (src/unnamed/part_001):

```go
now := time.Now()
elapsed := now.Sub(rl.lastUpdate).Seconds()
rl.tokens += elapsed * rl.rate
if rl.tokens > rl.maxTokens { rl.tokens = rl.maxTokens }
rl.lastUpdate = now
if rl.tokens >= 1 { rl.tokens--; return true }
return false
```
The observation time `now` is passed explicitly. Returns the boolean
result together with the updated bucket. -/
def RateLimiter.Allow (rl : RateLimiter) (now : ℚ) : Bool × RateLimiter :=
  let elapsed := now - rl.lastUpdate
  let t1 := rl.tokens + elapsed * rl.rate
  let t2 := if t1 > rl.maxTokens then rl.maxTokens else t1
  let rl1 : RateLimiter := { rl with tokens := t2, lastUpdate := now }
  if rl1.tokens ≥ 1 then (true, { rl1 with tokens := rl1.tokens - 1 })
  else (false, rl1)

/-- The spec's description of `Allow` (§4.3), written from its words:
refill to `min(capacity, tokens + elapsed × rate)`, stamp `lastUpdate`,
then admit (true, one token removed) iff at least one token is present,
else reject with the state otherwise unchanged. -/
def allowSpecDescription (rl : RateLimiter) (now : ℚ) : Bool × RateLimiter :=
  let refilled : RateLimiter :=
    { rl with
        tokens := min rl.maxTokens (rl.tokens + (now - rl.lastUpdate) * rl.rate)
        lastUpdate := now }
  if refilled.tokens ≥ 1 then
    (true, { refilled with tokens := refilled.tokens - 1 })
  else
    (false, refilled)

/-- States of a bucket after each call of a sequence of `Allow` calls at
the given observation times. -/
def allowStates (rl : RateLimiter) : List ℚ → List RateLimiter
  | [] => []
  | t :: ts =>
    let rl1 := (rl.Allow t).2
    rl1 :: allowStates rl1 ts

/-- Boolean results of a sequence of `Allow` calls at the given
observation times. -/
def allowRun (rl : RateLimiter) : List ℚ → List Bool
  | [] => []
  | t :: ts =>
    let r := rl.Allow t
    r.1 :: allowRun r.2 ts

/-! ## Middleware chain (`3_1_middleware_principle.go`)

The file documents gin's dispatch mechanism verbatim:

```go
func (c *Context) Next() {
    c.index++
    for c.index < int8(len(c.handlers)) {
        c.handlers[c.index](c)
        c.index++
    }
}

const abortIndex int8 = math.MaxInt8 >> 1  // 63

func (c *Context) Abort() {
    c.index = abortIndex
}
```

Handlers are deep-embedded as programs over a small operation language
(`Op`): record a log entry, call `Next` (`Op.next`), call `Abort`
(`Op.abort`), or write the response. The execution of one request is a
small-step machine on a pair (pending operations, context). The key
encoding step: after `handlers[index](c)` returns, `Next`'s loop does
`index++` and re-tests `index < len(handlers)` — which is precisely the
behaviour of `Next` itself. Invoking a handler therefore splices its
body in front of a residual `Op.next` that stands for the remainder of
the loop. `index` is embedded as `ℤ` (it starts at `-1`; gin caps a
chain below `abortIndex`, so the `int8` never overflows for chains gin
accepts, and theorems carry the corresponding length bound where abort
behaviour depends on it). -/

/-- Log entries: a stage's entry line, a stage's exit line (the code
after its `Next` call), or the terminal handler's line. -/
inductive Entry where
  | enter : ℕ → Entry
  | exit : ℕ → Entry
  | handler : Entry
deriving DecidableEq, Repr

/-- Operations a deep-embedded handler can perform. -/
inductive Op where
  | log : Entry → Op
  | next : Op
  | abort : Op
  | write : ℕ → String → Op
deriving DecidableEq, Repr

/-- gin's `abortIndex` (`math.MaxInt8 >> 1 = 63`), quoted in the
source file. -/
def abortIndex : ℤ := 63

/-- The per-request context: the registered handler chain, gin's
`index` cursor, plus observation fields (the shared log the example
stages write to, the list of handler positions invoked so far, in
order) and the write-once response. -/
structure Ctx where
  handlers : List (List Op)
  index : ℤ
  log : List Entry
  invoked : List ℕ
  response : Option (ℕ × String)
deriving DecidableEq, Repr

/-- Modelled from the spec: `WriteResponse(status, body)` of §4.1 —
gin's response writer (`c.JSON` / `c.Writer`) is not part of this
repository, only the note that a response must be written once. Per the
spec it "sets the response if and only if it has not already been set;
subsequent calls after the first are silently ignored (write-once
semantics)". -/
def ctxWrite (s : ℕ) (b : String) (c : Ctx) : Ctx :=
  match c.response with
  | none => { c with response := some (s, b) }
  | some _ => c

/-- One step of the middleware machine. `Op.next` is gin's `Next()`:
increment `index`; if it still addresses a handler, splice that
handler's body in front of a residual `Op.next` (the rest of `Next`'s
loop: `index++` then re-test, i.e. `Next` again) and record the
invocation; otherwise fall through to the pending continuation. -/
def step : List Op × Ctx → List Op × Ctx
  | ([], c) => ([], c)
  | (Op.log e :: rest, c) => (rest, { c with log := c.log ++ [e] })
  | (Op.abort :: rest, c) => (rest, { c with index := abortIndex })
  | (Op.write s b :: rest, c) => (rest, ctxWrite s b c)
  | (Op.next :: rest, c) =>
    let c1 : Ctx := { c with index := c.index + 1 }
    if 0 ≤ c1.index ∧ c1.index < (c1.handlers.length : ℤ) then
      (c1.handlers.getD c1.index.toNat [] ++ Op.next :: rest,
       { c1 with invoked := c1.invoked ++ [c1.index.toNat] })
    else (rest, c1)

/-- `n` steps of the machine (the empty operation list is a fixpoint,
so surplus steps are harmless). -/
def stepN : ℕ → List Op × Ctx → List Op × Ctx
  | 0, s => s
  | n + 1, s => stepN n (step s)

/-- A fresh per-request context: gin resets `index` to `-1` before
dispatch. -/
def initCtx (hs : List (List Op)) : Ctx :=
  { handlers := hs, index := -1, log := [], invoked := [], response := none }

/-- Execute a chain for one request: gin's engine starts dispatch by
calling `c.Next()` on the fresh context; `n` is a step budget. The run
is complete when the operation component has emptied. -/
def execChain (n : ℕ) (hs : List (List Op)) : List Op × Ctx :=
  stepN n ([Op.next], initCtx hs)

/-- The example's `visualMiddleware(name)`: log entry, `c.Next()`, log
exit (`3_1_middleware_principle.go`, lines 359–365). -/
def visStage (k : ℕ) : List Op :=
  [Op.log (Entry.enter k), Op.next, Op.log (Entry.exit k)]

/-- A terminal handler that records its execution. -/
def termStage : List Op := [Op.log Entry.handler]

/-- A stage that logs its entry, calls `Abort`, and still runs its
remaining code (logging its exit line), as in the example's
`abortMiddleware`. -/
def abortStage (k : ℕ) : List Op :=
  [Op.log (Entry.enter k), Op.abort, Op.log (Entry.exit k)]

/-- A chain of `N` entry/exit-recording stages, labelled `1..N` in
registration order, followed by the terminal handler. -/
def chainH (N : ℕ) : List (List Op) :=
  (List.range' 1 N).map visStage ++ [termStage]

/-- A chain of `N` stages labelled `1..N` where stage `k` aborts
(the others are entry/exit-recording stages), plus the terminal
handler. -/
def chainAbort (N k : ℕ) : List (List Op) :=
  (List.range' 1 (k - 1)).map visStage ++ [abortStage k] ++
    ((List.range' (k + 1) (N - k)).map visStage ++ [termStage])

/-- The effect of a straight-line run of operations on the context when
no handler can be invoked any more: logs append, writes apply, `Abort`
sets the cursor, `Next` merely increments it. -/
def pureRun : List Op → Ctx → Ctx
  | [], c => c
  | Op.log e :: rest, c => pureRun rest { c with log := c.log ++ [e] }
  | Op.abort :: rest, c => pureRun rest { c with index := abortIndex }
  | Op.write s b :: rest, c => pureRun rest (ctxWrite s b c)
  | Op.next :: rest, c => pureRun rest { c with index := c.index + 1 }

/-- The log entries a straight-line operation list records. -/
def logsOf : List Op → List Entry
  | [] => []
  | Op.log e :: rest => e :: logsOf rest
  | _ :: rest => logsOf rest

/-- Context sanity invariant for the invocation record: positions are
strictly increasing, each lies below the chain length, and none exceeds
the current cursor. -/
def CtxInv (c : Ctx) : Prop :=
  c.invoked.Pairwise (· < ·) ∧
  ∀ q ∈ c.invoked, (q : ℤ) ≤ c.index ∧ q < c.handlers.length

/-! ## Lemmas about the token bucket -/

/-- One `Allow` call preserves the token bounds and only restamps
`lastUpdate`, provided the rate is non-negative and time does not run
backwards. -/
theorem allow_step_invariant (rl : RateLimiter) (now : ℚ)
    (hr : 0 ≤ rl.rate) (h0 : 0 ≤ rl.tokens)
    (hc : rl.tokens ≤ rl.maxTokens) (hnow : rl.lastUpdate ≤ now) :
    0 ≤ ((rl.Allow now).2).tokens ∧
    ((rl.Allow now).2).tokens ≤ rl.maxTokens ∧
    (rl.Allow now).2.maxTokens = rl.maxTokens ∧
    (rl.Allow now).2.rate = rl.rate ∧
    (rl.Allow now).2.lastUpdate = now := by
  have hel : 0 ≤ (now - rl.lastUpdate) * rl.rate :=
    mul_nonneg (by linarith) hr
  simp only [RateLimiter.Allow]
  split_ifs with h1 h2 h3 <;> simp_all <;> linarith

/-- Every state reached by a non-decreasing sequence of `Allow` calls
keeps its token count within `[0, capacity]` (non-negative rate). -/
theorem allowStates_invariant (ts : List ℚ) :
    ∀ rl : RateLimiter, 0 ≤ rl.rate → 0 ≤ rl.tokens →
      rl.tokens ≤ rl.maxTokens → List.Chain (· ≤ ·) rl.lastUpdate ts →
      ∀ s ∈ allowStates rl ts,
        0 ≤ s.tokens ∧ s.tokens ≤ s.maxTokens ∧ s.maxTokens = rl.maxTokens := by
  induction ts with
  | nil => intro rl _ _ _ _ s hs; simp [allowStates] at hs
  | cons t ts ih =>
    intro rl hr h0 hc hchain s hs
    rw [List.chain_cons] at hchain
    obtain ⟨hle, hchain'⟩ := hchain
    obtain ⟨i0, i1, i2, i3, i4⟩ := allow_step_invariant rl t hr h0 hc hle
    simp only [allowStates, List.mem_cons] at hs
    rcases hs with rfl | hs
    · exact ⟨i0, by rw [i2]; exact i1, i2⟩
    · have := ih (rl.Allow t).2 (by rw [i3]; exact hr) i0 (by rw [i2]; exact i1)
        (by rw [i4]; exact hchain') s hs
      exact ⟨this.1, this.2.1, by rw [this.2.2, i2]⟩

/-- Back-to-back `Allow` calls at the frozen refill timestamp admit
exactly `⌊tokens⌋` requests and then reject. -/
theorem allowRun_burst_const (n : ℕ) :
    ∀ rl : RateLimiter, ∀ now : ℚ, rl.lastUpdate = now → 0 ≤ rl.tokens →
      rl.tokens ≤ rl.maxTokens →
      allowRun rl (List.replicate n now) =
        List.replicate (min n (⌊rl.tokens⌋).toNat) true ++
        List.replicate (n - min n (⌊rl.tokens⌋).toNat) false := by
  induction n with
  | zero => intro rl now _ _ _; simp [allowRun]
  | succ n ih =>
    intro rl now hlast h0 hc
    have hstep : rl.Allow now =
        (if rl.tokens ≥ 1 then (true, { rl with tokens := rl.tokens - 1, lastUpdate := now })
         else (false, { rl with lastUpdate := now })) := by
      simp only [RateLimiter.Allow, hlast]
      have : rl.tokens + (now - now) * rl.rate = rl.tokens := by ring
      rw [this]
      split_ifs with hclamp h1 h1 <;> simp_all <;> linarith
    rw [List.replicate_succ]
    by_cases h1 : (1:ℚ) ≤ rl.tokens
    · have hK : 1 ≤ ⌊rl.tokens⌋ := by exact_mod_cast Int.le_floor.mpr (by exact_mod_cast h1)
      simp only [allowRun, hstep, if_pos h1]
      rw [ih { rl with tokens := rl.tokens - 1, lastUpdate := now } now rfl
        (by simp; linarith) (by simp; linarith)]
      have hfl : ⌊rl.tokens - 1⌋ = ⌊rl.tokens⌋ - 1 := by
        simpa using Int.floor_sub_int rl.tokens 1
      simp only [hfl]
      have e1 : min (n + 1) (⌊rl.tokens⌋).toNat = min n (⌊rl.tokens⌋ - 1).toNat + 1 := by
        omega
      rw [e1]
      have e2 : n + 1 - (min n (⌊rl.tokens⌋ - 1).toNat + 1)
          = n - min n (⌊rl.tokens⌋ - 1).toNat := by
        omega
      rw [e2, List.replicate_succ]
      simp
    · push_neg at h1
      have hK : ⌊rl.tokens⌋ = 0 := by
        rw [Int.floor_eq_zero_iff]
        constructor <;> simp [h0, h1]
      simp only [allowRun, hstep, if_neg (by linarith : ¬ (1:ℚ) ≤ rl.tokens)]
      rw [ih { rl with lastUpdate := now } now rfl h0 hc]
      simp [hK, List.replicate_succ]

/-- A burst of `Allow` calls at a common observation time `now`:
the first call refills to `min capacity (tokens + elapsed·rate)`, and the
burst admits exactly the floor of that amount (capped by the burst
length). -/
theorem allowRun_burst (n : ℕ) (rl : RateLimiter) (now : ℚ)
    (hnow : rl.lastUpdate ≤ now) (hr : 0 ≤ rl.rate) (h0 : 0 ≤ rl.tokens)
    (hcap : 0 ≤ rl.maxTokens) :
    allowRun rl (List.replicate n now) =
      List.replicate
        (min n (⌊min rl.maxTokens (rl.tokens + (now - rl.lastUpdate) * rl.rate)⌋).toNat) true ++
      List.replicate
        (n - min n (⌊min rl.maxTokens (rl.tokens + (now - rl.lastUpdate) * rl.rate)⌋).toNat)
        false := by
  set m : ℚ := min rl.maxTokens (rl.tokens + (now - rl.lastUpdate) * rl.rate) with hm
  have hm0 : 0 ≤ m := by
    apply le_min hcap
    have : 0 ≤ (now - rl.lastUpdate) * rl.rate := mul_nonneg (by linarith) hr
    linarith
  have hmc : m ≤ rl.maxTokens := min_le_left _ _
  cases n with
  | zero => simp [allowRun]
  | succ n =>
    have hclamp : (if rl.tokens + (now - rl.lastUpdate) * rl.rate > rl.maxTokens
        then rl.maxTokens else rl.tokens + (now - rl.lastUpdate) * rl.rate) = m := by
      rcases le_or_lt (rl.tokens + (now - rl.lastUpdate) * rl.rate) rl.maxTokens with h | h
      · rw [if_neg (not_lt.mpr h), hm, min_eq_right h]
      · rw [if_pos h, hm, min_eq_left h.le]
    have hstep : rl.Allow now =
        (if (1:ℚ) ≤ m then (true, { rl with tokens := m - 1, lastUpdate := now })
         else (false, { rl with tokens := m, lastUpdate := now })) := by
      simp only [RateLimiter.Allow, hclamp]
    rw [List.replicate_succ]
    by_cases h1 : (1:ℚ) ≤ m
    · have hK : 1 ≤ ⌊m⌋ := by exact_mod_cast Int.le_floor.mpr (by exact_mod_cast h1)
      simp only [allowRun, hstep, if_pos h1]
      rw [allowRun_burst_const n { rl with tokens := m - 1, lastUpdate := now } now rfl
        (by simp; linarith) (by simp; linarith)]
      have hfl : ⌊m - 1⌋ = ⌊m⌋ - 1 := by simpa using Int.floor_sub_int m 1
      simp only [hfl]
      have e1 : min (n + 1) (⌊m⌋).toNat = min n (⌊m⌋ - 1).toNat + 1 := by omega
      rw [e1]
      have e2 : n + 1 - (min n (⌊m⌋ - 1).toNat + 1) = n - min n (⌊m⌋ - 1).toNat := by omega
      rw [e2, List.replicate_succ]
      simp
    · push_neg at h1
      have hK : ⌊m⌋ = 0 := by
        rw [Int.floor_eq_zero_iff]
        constructor <;> simp [hm0, h1]
      simp only [allowRun, hstep, if_neg (by linarith : ¬ (1:ℚ) ≤ m)]
      rw [allowRun_burst_const n { rl with tokens := m, lastUpdate := now } now rfl hm0 hmc]
      simp [hK, List.replicate_succ]

/-! ## Claims about the token bucket -/

/-- Claim C5: every `Allow()` call on a bucket with rate `r`, capacity
`c`, token count `t` and last-refill time `s`, observed at time `now`,
first sets the tokens to `min c (t + (now - s) * r)` and the last-refill
time to `now`, then admits (returns `true`, one token removed) iff at
least one token is present, and otherwise rejects leaving the refilled
token count unchanged. `Allow` is a total function (it never raises an
error); `false` is the sole rejection signal. -/
theorem c5_allow_refill_then_admit (rl : RateLimiter) (now : ℚ) :
    rl.Allow now = allowSpecDescription rl now := by
  unfold RateLimiter.Allow allowSpecDescription
  rcases le_or_lt (rl.tokens + (now - rl.lastUpdate) * rl.rate) rl.maxTokens with h | h
  · simp [if_neg (not_lt.mpr h), min_eq_right h]
  · simp [if_pos h, min_eq_left h.le]

/-- Claim C6, counterexample: the claim quantifies over every bucket
built by the constructor with capacity `c ≥ 0`, with no constraint on
the rate. For `NewRateLimiter (-1) 5` the capacity is `5 ≥ 0` and the
single-call sequence at time `10` is non-decreasing, yet the token count
after the call is `-5`, outside `[0, capacity]`: the refill only clamps
from above, so a negative rate drives the count negative. -/
theorem c6_counterexample :
    ((0:ℚ) ≤ 5) ∧ List.Chain (· ≤ ·) ((NewRateLimiter (-1) 5 0).lastUpdate) [10] ∧
    ∃ s ∈ allowStates (NewRateLimiter (-1) 5 0) [10], ¬ (0 ≤ s.tokens ∧ s.tokens ≤ 5) := by
  refine ⟨by norm_num, ?_, ?_⟩
  · simp [List.chain_cons, NewRateLimiter]
  · refine ⟨((NewRateLimiter (-1) 5 0).Allow 10).2, by simp [allowStates], ?_⟩
    norm_num [NewRateLimiter, RateLimiter.Allow]

/-- Claim C6, amended: for every bucket created by the constructor with
capacity `c ≥ 0` and *non-negative rate* `r`, and every finite sequence
of `Allow()` calls at non-decreasing times, the token count observed
after each call stays within `[0, c]`; in particular, tokens never
exceed the capacity even after arbitrarily long idle periods. -/
theorem c6_tokens_bounded (r c t0 : ℚ) (ts : List ℚ)
    (hr : 0 ≤ r) (hc : 0 ≤ c) (hts : List.Chain (· ≤ ·) t0 ts) :
    ∀ s ∈ allowStates (NewRateLimiter r c t0) ts, 0 ≤ s.tokens ∧ s.tokens ≤ c := by
  intro s hs
  have := allowStates_invariant ts (NewRateLimiter r c t0) hr (by simpa [NewRateLimiter] using hc)
    (by simp [NewRateLimiter]) (by simpa [NewRateLimiter] using hts) s hs
  exact ⟨this.1, by rw [← show s.maxTokens = c from this.2.2]; exact this.2.1⟩

/-- Witness for `c6_tokens_bounded` at rate 1, capacity 2, a single
call at time 1: the state reached stays within the bounds. -/
theorem c6_witness :
    0 ≤ ((NewRateLimiter 1 2 0).Allow 1).2.tokens ∧
    ((NewRateLimiter 1 2 0).Allow 1).2.tokens ≤ 2 :=
  c6_tokens_bounded 1 2 0 [1] (by norm_num) (by norm_num)
    (by simp [List.chain_cons]) ((NewRateLimiter 1 2 0).Allow 1).2
    (by simp [allowStates])

/-- Claim C7, counterexample: the claim predicts
`min (C, ⌊tokens_before + R·T⌋)` consecutive admissions, with the
capacity `C` outside the floor. For `R = 1`, `C = tokens_before = 3/2`,
`T = 1`, a burst of two calls admits exactly one request, but the
claimed count is `min (3/2) ⌊3/2 + 1·1⌋ = 3/2 ≠ 1`: with a non-integral
capacity the claimed formula is not even an integer. -/
theorem c7_counterexample :
    allowRun (NewRateLimiter 1 (3/2) 0) (List.replicate 2 1) = [true, false] ∧
    ¬ (((allowRun (NewRateLimiter 1 (3/2) 0) (List.replicate 2 1)).count true : ℚ)
        = min ((3:ℚ)/2) ((⌊(3:ℚ)/2 + 1 * 1⌋ : ℤ) : ℚ)) := by
  have hrun : allowRun (NewRateLimiter 1 (3/2) 0) (List.replicate 2 1) = [true, false] := by
    norm_num [NewRateLimiter, RateLimiter.Allow, allowRun, List.replicate]
  refine ⟨hrun, ?_⟩
  rw [hrun]
  norm_num [Int.floor_eq_iff]

/-- Claim C7, amended: with rate `R ≥ 0`, capacity `C ≥ 0` and current
tokens `≥ 0`, after `T ≥ 0` idle seconds a burst of `n` back-to-back
`Allow()` calls yields exactly `⌊min C (tokens_before + R×T)⌋` (capped
by `n`) consecutive `true` results followed by only `false` results —
i.e. the claimed `min(C, ⌊tokens_before + R×T⌋)` with the floor taken
after the min; the two agree whenever `C` is an integer. -/
theorem c7_burst_count (rl : RateLimiter) (T : ℚ) (n : ℕ)
    (hr : 0 ≤ rl.rate) (hT : 0 ≤ T) (h0 : 0 ≤ rl.tokens) (hcap : 0 ≤ rl.maxTokens) :
    allowRun rl (List.replicate n (rl.lastUpdate + T)) =
      List.replicate (min n (⌊min rl.maxTokens (rl.tokens + rl.rate * T)⌋).toNat) true ++
      List.replicate (n - min n (⌊min rl.maxTokens (rl.tokens + rl.rate * T)⌋).toNat) false := by
  have h := allowRun_burst n rl (rl.lastUpdate + T) (by linarith) hr h0 hcap
  have harg : rl.tokens + (rl.lastUpdate + T - rl.lastUpdate) * rl.rate
      = rl.tokens + rl.rate * T := by ring
  rw [harg] at h
  exact h

/-- Witness for `c7_burst_count`: rate 2, capacity 5 (full bucket),
1 idle second, burst of 7 calls: all 5 tokens are spent, then rejection. -/
theorem c7_witness :
    allowRun (NewRateLimiter 2 5 0) (List.replicate 7 ((NewRateLimiter 2 5 0).lastUpdate + 1)) =
      [true, true, true, true, true, false, false] := by
  have h := c7_burst_count (NewRateLimiter 2 5 0) 1 7
    (by norm_num [NewRateLimiter]) (by norm_num)
    (by norm_num [NewRateLimiter]) (by norm_num [NewRateLimiter])
  rw [h]
  norm_num [NewRateLimiter, List.replicate]

/-- Claim C9: the mutex in `RateLimiter` serializes `Allow`, so a run of
`N` concurrent callers on a fresh bucket of capacity 1 is some
sequential interleaving of `N` atomic `Allow` calls, all observing the
same instant `now`. Every such interleaving yields exactly one `true`
followed by `N - 1` `false` results: the first call refills to at most
the capacity 1 and takes the only token; no later call can observe a
pre-decrement count. -/
theorem c9_single_admit (N : ℕ) (r t0 now : ℚ)
    (hN : 1 ≤ N) (hr : 0 ≤ r) (ht : t0 ≤ now) :
    allowRun (NewRateLimiter r 1 t0) (List.replicate N now) =
      true :: List.replicate (N - 1) false := by
  have h := allowRun_burst N (NewRateLimiter r 1 t0) now
    (by simpa [NewRateLimiter] using ht) hr
    (by norm_num [NewRateLimiter]) (by norm_num [NewRateLimiter])
  have he : 0 ≤ (now - t0) * r := mul_nonneg (by linarith) hr
  have hmin : min (NewRateLimiter r 1 t0).maxTokens
      ((NewRateLimiter r 1 t0).tokens +
        (now - (NewRateLimiter r 1 t0).lastUpdate) * (NewRateLimiter r 1 t0).rate) = 1 := by
    simp only [NewRateLimiter]
    exact min_eq_left (by linarith)
  rw [hmin] at h
  norm_num at h
  obtain ⟨m, rfl⟩ : ∃ m, N = m + 1 := ⟨N - 1, by omega⟩
  have e1 : min (m + 1) 1 = 1 := by omega
  rw [e1] at h
  simpa [List.replicate_succ] using h

/-- Witness for `c9_single_admit` with three callers. -/
theorem c9_witness :
    allowRun (NewRateLimiter 1 1 0) (List.replicate 3 2) = [true, false, false] := by
  have h := c9_single_admit 3 1 0 2 (by norm_num) (by norm_num) (by norm_num)
  simpa [List.replicate] using h

/-- Claim C10: a bucket built by `NewRateLimiter r c` starts full
(token count `c`), and consequently for every capacity `c ≥ 1` (and
non-negative rate) the first `Allow()` call admits. -/
theorem c10_starts_full (r c t0 : ℚ) :
    (NewRateLimiter r c t0).tokens = c ∧
    (1 ≤ c → 0 ≤ r → ∀ now, t0 ≤ now → ((NewRateLimiter r c t0).Allow now).1 = true) := by
  refine ⟨rfl, fun hc hr now hnow => ?_⟩
  simp only [NewRateLimiter, RateLimiter.Allow]
  have he : 0 ≤ (now - t0) * r := mul_nonneg (by linarith) hr
  split_ifs with h1 h2 <;> simp_all <;> linarith

/-- Witness for `c10_starts_full` at rate 2, capacity 3, first call at
time 5. -/
theorem c10_witness :
    (NewRateLimiter 2 3 0).tokens = 3 ∧ ((NewRateLimiter 2 3 0).Allow 5).1 = true :=
  ⟨(c10_starts_full 2 3 0).1,
    (c10_starts_full 2 3 0).2 (by norm_num) (by norm_num) 5 (by norm_num)⟩

/-! ## Lemmas about the middleware machine -/

theorem stepN_succ (n : ℕ) (s : List Op × Ctx) : stepN (n + 1) s = stepN n (step s) := rfl

theorem stepN_add (a b : ℕ) (s : List Op × Ctx) :
    stepN (a + b) s = stepN b (stepN a s) := by
  induction a generalizing s with
  | zero => simp [stepN]
  | succ a ih =>
    have h : a + 1 + b = (a + b) + 1 := by omega
    rw [h, stepN, stepN, ih]

theorem step_log (e : Entry) (rest : List Op) (c : Ctx) :
    step (Op.log e :: rest, c) = (rest, { c with log := c.log ++ [e] }) := rfl

theorem step_abort (rest : List Op) (c : Ctx) :
    step (Op.abort :: rest, c) = (rest, { c with index := abortIndex }) := rfl

theorem step_write (s : ℕ) (b : String) (rest : List Op) (c : Ctx) :
    step (Op.write s b :: rest, c) = (rest, ctxWrite s b c) := rfl

theorem getD_append_cons (l1 : List (List Op)) (a : List Op) (l2 : List (List Op)) :
    (l1 ++ a :: l2).getD l1.length [] = a := by
  induction l1 with
  | nil => rfl
  | cons x xs ih => simpa using ih

theorem step_next_invoke (rest : List Op) (c : Ctx) (p : ℕ) (stage : List Op)
    (hidx : c.index = (p : ℤ) - 1) (hp : c.handlers.getD p [] = stage)
    (hlt : p < c.handlers.length) :
    step (Op.next :: rest, c) =
      (stage ++ Op.next :: rest,
       { c with index := (p : ℤ), invoked := c.invoked ++ [p] }) := by
  simp only [step]
  have h1 : c.index + 1 = (p : ℤ) := by omega
  rw [h1]
  rw [if_pos ⟨Int.ofNat_nonneg p, by exact_mod_cast hlt⟩]
  simp
  simpa [List.getD] using hp

theorem step_next_past (rest : List Op) (c : Ctx)
    (h : (c.handlers.length : ℤ) ≤ c.index + 1) :
    step (Op.next :: rest, c) = (rest, { c with index := c.index + 1 }) := by
  simp only [step]
  rw [if_neg]
  intro hcon
  omega

/-- The onion run: starting just before position `|pre|` in a chain
whose remaining stages are entry/exit-recording stages followed by the
terminal handler, execution logs the entries inward, the terminal line,
and the exits outward, invoking exactly the remaining positions in
order. -/
theorem onionVis (js : List ℕ) :
    ∀ (pre : List (List Op)) (cont : List Op) (c : Ctx),
      c.handlers = pre ++ js.map visStage ++ [termStage] →
      c.index = (pre.length : ℤ) - 1 →
      ∃ n, stepN n (Op.next :: cont, c) =
        (cont,
         ⟨c.handlers, (c.handlers.length : ℤ) + js.length,
          c.log ++ js.map Entry.enter ++ [Entry.handler] ++ (js.map Entry.exit).reverse,
          c.invoked ++ List.range' pre.length (js.length + 1), c.response⟩) := by
  induction js with
  | nil =>
    intro pre cont c hh hidx
    refine ⟨0 + 1 + 1 + 1, ?_⟩
    have hlen : c.handlers.length = pre.length + 1 := by simp [hh]
    rw [stepN_succ, step_next_invoke _ _ pre.length termStage hidx
      (by rw [hh]; simpa using getD_append_cons pre termStage []) (by omega)]
    rw [stepN_succ]
    simp only [termStage, List.cons_append, List.nil_append, step_log]
    rw [stepN_succ, step_next_past _ _ (by simp [hlen])]
    simp only [stepN]
    simp [hlen]
  | cons j js ih =>
    intro pre cont c hh hidx
    have hlen : c.handlers.length = pre.length + (js.length + 1) + 1 := by simp [hh]; omega
    obtain ⟨n1, hn1⟩ := ih (pre ++ [visStage j]) (Op.log (Entry.exit j) :: Op.next :: cont)
      (⟨c.handlers, (pre.length : ℤ), c.log ++ [Entry.enter j],
        c.invoked ++ [pre.length], c.response⟩)
      (by simp [hh]) (by simp)
    simp only at hn1
    have hplen : (pre ++ [visStage j]).length = pre.length + 1 := by simp
    rw [hplen] at hn1
    refine ⟨(1 + 1) + n1 + (1 + 1), ?_⟩
    rw [stepN_add ((1 + 1) + n1) (1 + 1), stepN_add (1 + 1) n1]
    have h2 : stepN (1 + 1) (Op.next :: cont, c) =
        (Op.next :: Op.log (Entry.exit j) :: Op.next :: cont,
         ⟨c.handlers, (pre.length : ℤ), c.log ++ [Entry.enter j],
          c.invoked ++ [pre.length], c.response⟩) := by
      rw [stepN_succ, step_next_invoke _ _ pre.length (visStage j) hidx
        (by rw [hh]; simpa using getD_append_cons pre (visStage j) _)
        (by simp [hlen]; omega)]
      rw [stepN_succ]
      simp only [visStage, List.cons_append, List.nil_append, step_log, stepN]
    rw [h2, hn1]
    rw [stepN_succ, step_log, stepN_succ, step_next_past _ _
      (by
        show (c.handlers.length : ℤ) ≤ (c.handlers.length : ℤ) + (js.length : ℤ) + 1
        omega)]
    simp only [stepN]
    refine Prod.ext rfl ?_
    rw [Ctx.mk.injEq]
    refine ⟨rfl, by push_cast [List.length_cons]; ring, by simp, ?_, rfl⟩
    have hr : List.range' pre.length (js.length + 1 + 1) =
        pre.length :: List.range' (pre.length + 1) (js.length + 1) :=
      List.range'_succ pre.length (js.length + 1) 1
    simp [hr]

/-- The abort onion run: entry/exit stages up to a stage that aborts.
Entries accumulate inward, `Abort` sets the cursor to `abortIndex`, the
aborting stage's post-abort code still logs its exit, the unwind logs
the outer exits, and no position beyond the aborting stage is ever
invoked (chains of at most 64 handlers, as gin guarantees). -/
theorem onionAbort (js : List ℕ) (m : ℕ) :
    ∀ (pre rest : List (List Op)) (cont : List Op) (c : Ctx),
      c.handlers = pre ++ js.map visStage ++ abortStage m :: rest →
      c.index = (pre.length : ℤ) - 1 →
      (c.handlers.length : ℤ) ≤ 64 →
      ∃ n, stepN n (Op.next :: cont, c) =
        (cont,
         ⟨c.handlers, 64 + js.length,
          c.log ++ js.map Entry.enter ++ [Entry.enter m, Entry.exit m] ++
            (js.map Entry.exit).reverse,
          c.invoked ++ List.range' pre.length (js.length + 1), c.response⟩) := by
  induction js with
  | nil =>
    intro pre rest cont c hh hidx hle
    refine ⟨0 + 1 + 1 + 1 + 1 + 1, ?_⟩
    have hlen : pre.length + 1 ≤ c.handlers.length := by
      simp only [hh, List.length_append, List.length_cons, List.length_map]
      omega
    rw [stepN_succ, step_next_invoke _ _ pre.length (abortStage m) hidx
      (by rw [hh]; simpa using getD_append_cons pre (abortStage m) rest) (by omega)]
    rw [stepN_succ]
    simp only [abortStage, List.cons_append, List.nil_append, step_log]
    rw [stepN_succ, step_abort, stepN_succ, step_log]
    rw [stepN_succ, step_next_past _ _ (by simp [abortIndex]; omega)]
    simp only [stepN, abortIndex]
    simp
  | cons j js ih =>
    intro pre rest cont c hh hidx hle
    have hlen : pre.length + 1 ≤ c.handlers.length := by
      simp only [hh, List.length_append, List.length_cons, List.length_map]
      omega
    obtain ⟨n1, hn1⟩ := ih (pre ++ [visStage j]) rest
      (Op.log (Entry.exit j) :: Op.next :: cont)
      (⟨c.handlers, (pre.length : ℤ), c.log ++ [Entry.enter j],
        c.invoked ++ [pre.length], c.response⟩)
      (by simp [hh]) (by simp) (by simpa using hle)
    simp only at hn1
    have hplen : (pre ++ [visStage j]).length = pre.length + 1 := by simp
    rw [hplen] at hn1
    refine ⟨(1 + 1) + n1 + (1 + 1), ?_⟩
    rw [stepN_add ((1 + 1) + n1) (1 + 1), stepN_add (1 + 1) n1]
    have h2 : stepN (1 + 1) (Op.next :: cont, c) =
        (Op.next :: Op.log (Entry.exit j) :: Op.next :: cont,
         ⟨c.handlers, (pre.length : ℤ), c.log ++ [Entry.enter j],
          c.invoked ++ [pre.length], c.response⟩) := by
      rw [stepN_succ, step_next_invoke _ _ pre.length (visStage j) hidx
        (by rw [hh]; simpa using getD_append_cons pre (visStage j) _)
        (by omega)]
      rw [stepN_succ]
      simp only [visStage, List.cons_append, List.nil_append, step_log, stepN]
    rw [h2, hn1]
    rw [stepN_succ, step_log, stepN_succ, step_next_past _ _
      (by
        show (c.handlers.length : ℤ) ≤ 64 + (js.length : ℤ) + 1
        omega)]
    simp only [stepN]
    refine Prod.ext rfl ?_
    rw [Ctx.mk.injEq]
    refine ⟨rfl, by push_cast [List.length_cons]; ring, by simp, ?_, rfl⟩
    have hr : List.range' pre.length (js.length + 1 + 1) =
        pre.length :: List.range' (pre.length + 1) (js.length + 1) :=
      List.range'_succ pre.length (js.length + 1) 1
    simp [hr]

theorem ctxInv_mk (hs2 : List (List Op)) (i : ℤ) (lg : List Entry)
    (inv : List ℕ) (r : Option (ℕ × String)) :
    CtxInv ⟨hs2, i, lg, inv, r⟩ ↔
      (inv.Pairwise (· < ·) ∧ ∀ q ∈ inv, (q : ℤ) ≤ i ∧ q < hs2.length) := Iff.rfl

theorem ctxWrite_fields (s : ℕ) (b : String) (c : Ctx) :
    (ctxWrite s b c).handlers = c.handlers ∧ (ctxWrite s b c).index = c.index ∧
    (ctxWrite s b c).log = c.log ∧ (ctxWrite s b c).invoked = c.invoked := by
  cases hr : c.response <;> simp [ctxWrite, hr]

theorem stepN_one (s : List Op × Ctx) : stepN 1 s = step s := rfl

/-- A machine step preserves the handler list and the invocation-record
invariant (chains of at most 63 handlers). -/
theorem step_preserves (ops : List Op) (c : Ctx)
    (hlen : c.handlers.length ≤ 63) (hinv : CtxInv c) :
    (step (ops, c)).2.handlers = c.handlers ∧ CtxInv (step (ops, c)).2 := by
  obtain ⟨hpw, hbound⟩ := hinv
  match ops with
  | [] => exact ⟨rfl, hpw, hbound⟩
  | Op.log e :: rest => exact ⟨rfl, hpw, fun q hq => hbound q hq⟩
  | Op.abort :: rest =>
    refine ⟨rfl, hpw, fun q hq => ?_⟩
    obtain ⟨hq1, hq2⟩ := hbound q hq
    refine ⟨?_, hq2⟩
    show (q : ℤ) ≤ abortIndex
    simp only [abortIndex]
    omega
  | Op.write s b :: rest =>
    cases hr : c.response
    · have hcw : ctxWrite s b c = { c with response := some (s, b) } := by
        simp [ctxWrite, hr]
      rw [show step (Op.write s b :: rest, c) = (rest, ctxWrite s b c) from rfl, hcw]
      exact ⟨rfl, hpw, hbound⟩
    · have hcw : ctxWrite s b c = c := by simp [ctxWrite, hr]
      rw [show step (Op.write s b :: rest, c) = (rest, ctxWrite s b c) from rfl, hcw]
      exact ⟨rfl, hpw, hbound⟩
  | Op.next :: rest =>
    by_cases hg : 0 ≤ c.index + 1 ∧ c.index + 1 < ((c.handlers.length : ℤ))
    · have hs : step (Op.next :: rest, c) =
          (c.handlers.getD (c.index + 1).toNat [] ++ Op.next :: rest,
           ⟨c.handlers, c.index + 1, c.log, c.invoked ++ [(c.index + 1).toNat], c.response⟩) := by
        simp only [step]
        rw [if_pos hg]
      obtain ⟨hg1, hg2⟩ := hg
      have htn : (((c.index + 1).toNat : ℤ)) = c.index + 1 := Int.toNat_of_nonneg hg1
      rw [hs]
      simp only [ctxInv_mk]
      refine ⟨trivial, ?_, ?_⟩
      · rw [List.pairwise_append]
        refine ⟨hpw, by simp, fun a ha b hb => ?_⟩
        simp only [List.mem_singleton] at hb
        subst hb
        have := (hbound a ha).1
        omega
      · intro q hq
        simp only [List.mem_append, List.mem_singleton] at hq
        rcases hq with hq | rfl
        · obtain ⟨hq1, hq2⟩ := hbound q hq
          exact ⟨by omega, hq2⟩
        · exact ⟨by omega, by omega⟩
    · have hs : step (Op.next :: rest, c) =
          (rest, ⟨c.handlers, c.index + 1, c.log, c.invoked, c.response⟩) := by
        simp only [step]
        rw [if_neg hg]
      rw [hs]
      simp only [ctxInv_mk]
      refine ⟨trivial, hpw, fun q hq => ?_⟩
      obtain ⟨hq1, hq2⟩ := hbound q hq
      exact ⟨by omega, hq2⟩

/-- `stepN` preserves the handler list and the invocation invariant. -/
theorem stepN_preserves (f : ℕ) :
    ∀ s : List Op × Ctx, s.2.handlers.length ≤ 63 → CtxInv s.2 →
      (stepN f s).2.handlers = s.2.handlers ∧ CtxInv (stepN f s).2 := by
  induction f with
  | zero => exact fun s _ h => ⟨rfl, h⟩
  | succ f ih =>
    intro s hlen hinv
    obtain ⟨ops, c⟩ := s
    obtain ⟨h1, h2⟩ := step_preserves ops c hlen hinv
    obtain ⟨h3, h4⟩ := ih (step (ops, c)) (by rw [h1]; exact hlen) h2
    rw [stepN]
    exact ⟨by rw [h3, h1], h4⟩

theorem pureRun_invoked (post : List Op) :
    ∀ c : Ctx, (pureRun post c).invoked = c.invoked := by
  induction post with
  | nil => exact fun c => rfl
  | cons op rest ih =>
    intro c
    match op with
    | Op.log e => exact ih _
    | Op.abort => exact ih _
    | Op.next => exact ih _
    | Op.write s b =>
      rw [show pureRun (Op.write s b :: rest) c = pureRun rest (ctxWrite s b c) from rfl,
        ih _, (ctxWrite_fields s b c).2.2.2]

theorem pureRun_log (post : List Op) :
    ∀ c : Ctx, (pureRun post c).log = c.log ++ logsOf post := by
  induction post with
  | nil => exact fun c => by simp [pureRun, logsOf]
  | cons op rest ih =>
    intro c
    match op with
    | Op.log e =>
      rw [show pureRun (Op.log e :: rest) c = pureRun rest { c with log := c.log ++ [e] } from rfl,
        ih _]
      simp [logsOf]
    | Op.abort =>
      rw [show pureRun (Op.abort :: rest) c
          = pureRun rest { c with index := abortIndex } from rfl, ih _]
      simp [logsOf]
    | Op.next =>
      rw [show pureRun (Op.next :: rest) c
          = pureRun rest { c with index := c.index + 1 } from rfl, ih _]
      simp [logsOf]
    | Op.write s b =>
      rw [show pureRun (Op.write s b :: rest) c = pureRun rest (ctxWrite s b c) from rfl,
        ih _, (ctxWrite_fields s b c).2.2.1]
      simp [logsOf]

/-- Once the cursor is at or beyond `abortIndex` and the chain is short
enough that no handler can be addressed any more, a straight-line
operation list runs to completion with exactly its pure effects. -/
theorem run_straightline (post : List Op) :
    ∀ c : Ctx, 63 ≤ c.index → (c.handlers.length : ℤ) ≤ 64 →
      ∃ n, stepN n (post, c) = ([], pureRun post c) := by
  induction post with
  | nil => exact fun c _ _ => ⟨0, rfl⟩
  | cons op rest ih =>
    intro c hidx hlen
    match op with
    | Op.log e =>
      obtain ⟨n, hn⟩ := ih { c with log := c.log ++ [e] } hidx hlen
      exact ⟨1 + n, by rw [stepN_add 1 n, stepN_one, step_log, hn]; rfl⟩
    | Op.abort =>
      obtain ⟨n, hn⟩ := ih { c with index := abortIndex } (by simp [abortIndex]) hlen
      exact ⟨1 + n, by rw [stepN_add 1 n, stepN_one, step_abort, hn]; rfl⟩
    | Op.write s b =>
      obtain ⟨n, hn⟩ := ih (ctxWrite s b c)
        (by rw [(ctxWrite_fields s b c).2.1]; exact hidx)
        (by rw [(ctxWrite_fields s b c).1]; exact hlen)
      exact ⟨1 + n, by rw [stepN_add 1 n, stepN_one, step_write, hn]; rfl⟩
    | Op.next =>
      obtain ⟨n, hn⟩ := ih { c with index := c.index + 1 }
        (by show (63:ℤ) ≤ c.index + 1; omega) hlen
      exact ⟨1 + n, by rw [stepN_add 1 n, stepN_one, step_next_past _ _ (by omega), hn]; rfl⟩

/-! ## Claims about the middleware chain -/

/-- Claim C1: for every chain of `N` stages (each logging its entry,
calling `Next`, then logging its exit) plus a terminal handler, the
execution completes and produces the log: entries in registration order
`1..N`, then the terminal handler's line, then exits in reverse order
`N..1`; the handler positions `0..N` are invoked in registration
order. -/
theorem c1_ordering (N : ℕ) :
    ∃ n, execChain n (chainH N) =
      ([], ⟨chainH N, ((chainH N).length : ℤ) + N,
        (List.range' 1 N).map Entry.enter ++ [Entry.handler] ++
          ((List.range' 1 N).map Entry.exit).reverse,
        List.range (N + 1), none⟩) := by
  obtain ⟨n, hn⟩ := onionVis (List.range' 1 N) [] [] (initCtx (chainH N))
    (by simp [initCtx, chainH]) (by simp [initCtx])
  refine ⟨n, ?_⟩
  show stepN n ([Op.next], initCtx (chainH N)) = _
  rw [show ([Op.next] : List Op) = Op.next :: [] from rfl, hn]
  simp [initCtx, List.range_eq_range', List.length_range']

/-- Claim C2: for every chain of `N` stages in which stage `k` aborts,
the run completes with log: entries `1..k`, then the exits `k..1`
(stage `k`'s own exit line still appears — its post-`Abort` code runs),
and the invocation record is exactly the positions `0..k-1`: no stage
after the aborting one, and not the terminal handler, is ever invoked.
`N ≤ 61` reflects gin's registration cap (a chain must stay below
`abortIndex = 63` handlers, terminal included). -/
theorem c2_short_circuit (N k : ℕ) (hk1 : 1 ≤ k) (hkN : k ≤ N) (hN : N ≤ 61) :
    ∃ n, execChain n (chainAbort N k) =
      ([], ⟨chainAbort N k, 64 + ((k - 1 : ℕ) : ℤ),
        (List.range' 1 (k - 1)).map Entry.enter ++ [Entry.enter k, Entry.exit k] ++
          ((List.range' 1 (k - 1)).map Entry.exit).reverse,
        List.range k, none⟩) := by
  obtain ⟨n, hn⟩ := onionAbort (List.range' 1 (k - 1)) k []
    ((List.range' (k + 1) (N - k)).map visStage ++ [termStage]) [] (initCtx (chainAbort N k))
    (by simp [initCtx, chainAbort]) (by simp [initCtx])
    (by
      simp [initCtx, chainAbort, List.length_range']
      omega)
  refine ⟨n, ?_⟩
  show stepN n ([Op.next], initCtx (chainAbort N k)) = _
  rw [show ([Op.next] : List Op) = Op.next :: [] from rfl, hn]
  have hk : (k - 1) + 1 = k := by omega
  simp [initCtx, List.range_eq_range', List.length_range', hk]

/-- Witness for `c2_short_circuit`: three stages, the second aborts. -/
theorem c2_witness :
    ∃ n, execChain n (chainAbort 3 2) =
      ([], ⟨chainAbort 3 2, 64 + ((2 - 1 : ℕ) : ℤ),
        (List.range' 1 (2 - 1)).map Entry.enter ++ [Entry.enter 2, Entry.exit 2] ++
          ((List.range' 1 (2 - 1)).map Entry.exit).reverse,
        List.range 2, none⟩) :=
  c2_short_circuit 3 2 (by norm_num) (by norm_num) (by norm_num)

/-- Claim C3: for every chain (arbitrary stages plus an arbitrary
terminal handler, at most 63 handlers as gin enforces) and every step
budget — so for every partial or complete execution — the terminal
handler's position is invoked at most once; and calling `Next` when the
cursor is already past the end of the chain is a no-op: it merely
increments the cursor and hands control back, invoking nothing and
touching neither log nor response. -/
theorem c3_terminal_once (f : ℕ) (stages : List (List Op)) (t : List Op)
    (hlen : stages.length + 1 ≤ 63) :
    (execChain f (stages ++ [t])).2.invoked.count stages.length ≤ 1 ∧
    (∀ (rest : List Op) (c : Ctx), (c.handlers.length : ℤ) ≤ c.index + 1 →
      step (Op.next :: rest, c) = (rest, { c with index := c.index + 1 })) := by
  constructor
  · have hinit : CtxInv (initCtx (stages ++ [t])) := by
      refine ⟨List.Pairwise.nil, ?_⟩
      intro q hq
      simp [initCtx] at hq
    have hl : (initCtx (stages ++ [t])).handlers.length ≤ 63 := by
      simp [initCtx]
      omega
    obtain ⟨_, hpw, _⟩ := stepN_preserves f ([Op.next], initCtx (stages ++ [t])) hl hinit
    have hnd : (execChain f (stages ++ [t])).2.invoked.Nodup :=
      hpw.imp (fun h => ne_of_lt h)
    exact List.nodup_iff_count_le_one.mp hnd stages.length
  · exact fun rest c h => step_next_past rest c h

/-- Witness for `c3_terminal_once`: a one-stage chain run to
completion. -/
theorem c3_witness :
    (execChain 30 ([visStage 1] ++ [termStage])).2.invoked.count
        ([visStage 1] : List (List Op)).length ≤ 1 ∧
    (∀ (rest : List Op) (c : Ctx), (c.handlers.length : ℤ) ≤ c.index + 1 →
      step (Op.next :: rest, c) = (rest, { c with index := c.index + 1 })) :=
  c3_terminal_once 30 [visStage 1] termStage (by norm_num)

/-- Claim C4: a stage that calls `Abort` still executes the rest of its
own body to completion: for every operation list `post` following the
`Abort` call (in a chain of at most 64 handlers), the run finishes the
remaining operations with exactly their straight-line effects — in
particular every later log entry of the stage is recorded — while the
invocation record is unchanged: `Abort` only prevents `Next` from
invoking further downstream handlers, it does not interrupt the
currently executing stage. -/
theorem c4_abort_continues (post : List Op) (c : Ctx)
    (hlen : (c.handlers.length : ℤ) ≤ 64) :
    (∃ n, stepN n (Op.abort :: post, c) = ([], pureRun post { c with index := abortIndex })) ∧
    (pureRun post { c with index := abortIndex }).invoked = c.invoked ∧
    (pureRun post { c with index := abortIndex }).log = c.log ++ logsOf post := by
  refine ⟨?_, ?_, ?_⟩
  · obtain ⟨n, hn⟩ := run_straightline post { c with index := abortIndex }
      (by simp [abortIndex]) (by exact hlen)
    exact ⟨1 + n, by rw [stepN_add 1 n, stepN_one, step_abort, hn]⟩
  · exact pureRun_invoked post _
  · exact pureRun_log post _

/-- Witness for `c4_abort_continues`: post-abort code that logs and
even calls `Next` again. -/
theorem c4_witness :
    (∃ n, stepN n (Op.abort :: [Op.log (Entry.exit 9), Op.next], initCtx [[Op.abort]]) =
      ([], pureRun [Op.log (Entry.exit 9), Op.next]
        { initCtx [[Op.abort]] with index := abortIndex })) ∧
    (pureRun [Op.log (Entry.exit 9), Op.next]
      { initCtx [[Op.abort]] with index := abortIndex }).invoked =
        (initCtx [[Op.abort]]).invoked ∧
    (pureRun [Op.log (Entry.exit 9), Op.next]
      { initCtx [[Op.abort]] with index := abortIndex }).log =
        (initCtx [[Op.abort]]).log ++ logsOf [Op.log (Entry.exit 9), Op.next] :=
  c4_abort_continues [Op.log (Entry.exit 9), Op.next] (initCtx [[Op.abort]])
    (by simp [initCtx])

/-- Claim C8: `WriteResponse` (modelled from the spec as `ctxWrite`)
sets the response iff none has been set yet: on an unwritten context it
records `(status, body)`; on a written context any later call, with any
payload, is silently ignored (no error — the function is total and
returns the context unchanged); hence after two calls with different
payloads only the first payload is observable. -/
theorem c8_write_once (c : Ctx) (s1 : ℕ) (b1 : String) (s2 : ℕ) (b2 : String) :
    (c.response = none → (ctxWrite s1 b1 c).response = some (s1, b1)) ∧
    (∀ r, c.response = some r → ctxWrite s1 b1 c = c) ∧
    (c.response = none → (ctxWrite s2 b2 (ctxWrite s1 b1 c)).response = some (s1, b1)) := by
  refine ⟨fun h => by simp [ctxWrite, h], fun r h => by simp [ctxWrite, h], fun h => ?_⟩
  have h1 : ctxWrite s1 b1 c = { c with response := some (s1, b1) } := by
    simp [ctxWrite, h]
  rw [h1]
  simp [ctxWrite]

/-- Witness for `c8_write_once`: writing 200/"ok" then 500/"err" leaves
the first payload in place. -/
theorem c8_witness :
    (ctxWrite 200 "ok" (initCtx [])).response = some (200, "ok") ∧
    (ctxWrite 500 "err" (ctxWrite 200 "ok" (initCtx []))).response = some (200, "ok") :=
  ⟨(c8_write_once (initCtx []) 200 "ok" 500 "err").1 rfl,
   (c8_write_once (initCtx []) 200 "ok" 500 "err").2.2 rfl⟩

end Pipeline
